import Mathlib

/-!
Verification of the Smartbot contextual-bandit core
(`src/template/core/main.py`) against its design specification.

The Python module implements a LinUCB contextual bandit over
`n_actions = 7` arms and `n_features = 16` real-valued features, plus
FastAPI endpoints (`/choose`, `/learn`, `/explain`), a UI-mode
classifier, and JSON state persistence.  This file is a shallow
embedding of that code: NumPy float arrays become functions
`Fin d → ℝ` and `Matrix (Fin d) (Fin d) ℝ`, Python lists become
`List ℝ`, NumPy shape errors (which raise `ValueError`) become
`Option`-failures, and `np.linalg.inv` becomes Mathlib's matrix
inverse.  An `Option`-result of `none` at an endpoint models an
exception escaping the endpoint body (there is no `try`/`except` in
any endpoint), not a handled error response.
-/

set_option maxRecDepth 2000

namespace Smartbot

open Matrix

/-- The `UIModeType` literal from the source: `"Crisis" | "Growth" | "Flow"`. -/
inductive UIMode
  | Crisis
  | Growth
  | Flow
deriving DecidableEq, Repr

/-- The `ActionType` literal from the source:
`"CBA" | "ABCD" | "VACI" | "IFTHENT" | "BREATH" | "JOURNAL" | "URGELOG"`. -/
inductive ActionType
  | CBA
  | ABCD
  | VACI
  | IFTHENT
  | BREATH
  | JOURNAL
  | URGELOG
deriving DecidableEq, BEq, Repr

/-- `self.actions` from `LinUCBBandit.__init__`. -/
def actions : List ActionType :=
  [.CBA, .ABCD, .VACI, .IFTHENT, .BREATH, .JOURNAL, .URGELOG]

/-- `self.feature_names` from `LinUCBBandit.__init__` (16 names, in
feature order: entry `i` names context position `i`). -/
def feature_names : List String :=
  ["mood", "stress", "urge_level", "energy",
   "sleep_quality", "workload", "social_support",
   "time_of_day", "day_of_week",
   "streak_normalized", "streak_momentum",
   "emotional_volatility", "core_balance", "contextual_risk",
   "recent_tool_effectiveness", "tool_diversity_score"]

/-- Model of `np.argmax` on a list: the index of the first occurrence
of the maximum (NumPy scans left to right and replaces the running
best only on a strictly greater value, so ties go to the lowest
index).  On the empty list NumPy raises; we return 0, and every lemma
about `npArgmax` assumes nonemptiness. -/
def npArgmax {α : Type} [LinearOrder α] : List α → ℕ
  | [] => 0
  | x :: xs => if xs.getD (npArgmax xs) x ≤ x then 0 else npArgmax xs + 1

/-- Model of `ndarray.max()` on a 1-d array.  NumPy raises on an empty
array; we return 0 there, and no claim depends on that case. -/
noncomputable def npMaxL : List ℝ → ℝ
  | [] => 0
  | x :: xs => xs.foldl max x

/-- Real-valued feature vector of dimension `d` (a NumPy 1-d array of
exact length `d`). -/
abbrev Vec (d : ℕ) := Fin d → ℝ

/-- Square real matrix of size `d × d`. -/
abbrev Mat (d : ℕ) := Matrix (Fin d) (Fin d) ℝ

/-- The mutable state of `LinUCBBandit.__init__`: the exploration
coefficient `self.alpha`, the per-arm matrices `self.A`, and the
per-arm accumulators `self.b`.  `na` is `n_actions`, `d` is
`n_features`. -/
structure LinUCBBandit (na d : ℕ) where
  alpha : ℝ
  A : Fin na → Mat d
  b : Fin na → Vec d

/-- The initialization in `LinUCBBandit.__init__`: `alpha = 1.0`,
`A = [np.identity(n_features) for each action]`, `b = zero vectors`. -/
noncomputable def LinUCBBandit.init (na d : ℕ) : LinUCBBandit na d :=
  { alpha := 1.0, A := fun _ => 1, b := fun _ => 0 }

/-- The global instance
`bandit = LinUCBBandit(n_actions=7, n_features=16, alpha=1.0)`. -/
noncomputable def bandit : LinUCBBandit 7 16 := LinUCBBandit.init 7 16

/-- The per-arm score computed inside `LinUCBBandit.choose_action`:
`A_inv = np.linalg.inv(self.A[a])`, `theta = A_inv @ self.b[a]`,
`confidence_bound = self.alpha * np.sqrt(features.T @ A_inv @ features)`,
`ucb_value = theta.T @ features + confidence_bound`. -/
noncomputable def ucb {na d : ℕ} (st : LinUCBBandit na d) (a : Fin na) (c : Vec d) : ℝ :=
  let A_inv := (st.A a)⁻¹
  let theta := A_inv *ᵥ st.b a
  let confidence_bound := st.alpha * Real.sqrt (c ᵥ* A_inv ⬝ᵥ c)
  theta ⬝ᵥ c + confidence_bound

/-- The exploration-bonus summand of `ucb` on its own
(`confidence_bound` in the source, line 89). -/
noncomputable def confidenceBound {na d : ℕ} (st : LinUCBBandit na d) (a : Fin na)
    (c : Vec d) : ℝ :=
  st.alpha * Real.sqrt (c ᵥ* (st.A a)⁻¹ ⬝ᵥ c)

/-- The exploitation summand `theta.T @ features` of `ucb` on its own. -/
noncomputable def exploitTerm {na d : ℕ} (st : LinUCBBandit na d) (a : Fin na)
    (c : Vec d) : ℝ :=
  ((st.A a)⁻¹ *ᵥ st.b a) ⬝ᵥ c

/-- The `ucb_values` list accumulated by the
`for a in range(self.n_actions)` loop. -/
noncomputable def ucbValues {na d : ℕ} (st : LinUCBBandit na d) (c : Vec d) : List ℝ :=
  List.ofFn fun a => ucb st a c

/-- `LinUCBBandit.choose_action`: `best_action = int(np.argmax(ucb_values))`,
`confidence = float(ucb_values[best_action])`.  (The rationale string it
also returns is plain text assembled from thresholds; no claim
concerns it, so it is not modelled.) -/
noncomputable def choose_action {na d : ℕ} (st : LinUCBBandit na d) (c : Vec d) : ℕ × ℝ :=
  let vals := ucbValues st c
  let best_action := npArgmax vals
  (best_action, vals.getD best_action 0)

/-- `LinUCBBandit.update`: `self.A[action] += np.outer(features, features)`;
`self.b[action] += reward * features`. -/
noncomputable def update {na d : ℕ} (st : LinUCBBandit na d) (c : Vec d) (a : Fin na)
    (r : ℝ) : LinUCBBandit na d :=
  { st with
    A := Function.update st.A a (st.A a + vecMulVec c c),
    b := Function.update st.b a (st.b a + r • c) }

/-- A finite sequence of `update` calls applied in order. -/
noncomputable def runUpdates {na d : ℕ} (st : LinUCBBandit na d)
    (us : List (Vec d × Fin na × ℝ)) : LinUCBBandit na d :=
  us.foldl (fun s u => update s u.1 u.2.1 u.2.2) st

/-- `LinUCBBandit.get_feature_importance`, step 1: the guard
`if action >= len(self.b): return {}` followed by
`theta = np.linalg.inv(self.A[action]) @ self.b[action]` and
`importance_scores = np.abs(theta)`. -/
noncomputable def importanceRaw {na d : ℕ} (st : LinUCBBandit na d) (action : ℕ) :
    List ℝ :=
  if h : action < na then
    let theta := (st.A ⟨action, h⟩)⁻¹ *ᵥ st.b ⟨action, h⟩
    List.ofFn fun i => |theta i|
  else []

/-- `LinUCBBandit.get_feature_importance`, step 2: the conditional
normalization `if importance_scores.max() > 0: importance_scores =
importance_scores / importance_scores.max()`. -/
noncomputable def importanceScores {na d : ℕ} (st : LinUCBBandit na d) (action : ℕ) :
    List ℝ :=
  let raw := importanceRaw st action
  if npMaxL raw > 0 then raw.map (fun x => x / npMaxL raw) else raw

/-- `LinUCBBandit.get_feature_importance`, step 3:
`dict(zip(self.feature_names, importance_scores))`, modelled as an
association list in insertion order (Python dicts preserve it). -/
noncomputable def get_feature_importance {na d : ℕ} (st : LinUCBBandit na d)
    (action : ℕ) : List (String × ℝ) :=
  feature_names.zip (importanceScores st action)

/-- One insertion step of a stable descending sort keyed on the second
component: the new element goes before the first strictly smaller key
and after all keys greater than or equal to it. -/
noncomputable def pyInsertDesc (x : String × ℝ) : List (String × ℝ) → List (String × ℝ)
  | [] => [x]
  | y :: ys => if y.2 < x.2 then x :: y :: ys else y :: pyInsertDesc x ys

/-- Model of Python `sorted(items, key=lambda x: x[1], reverse=True)`:
a stable sort into descending key order (CPython's sort is stable and
`reverse=True` preserves the original order of equal keys).  Insertion
sort with `pyInsertDesc` has exactly that observable behavior. -/
noncomputable def pySortDescBySnd (l : List (String × ℝ)) : List (String × ℝ) :=
  l.foldl (fun acc x => pyInsertDesc x acc) []

/-- The `top_contributing_features` list built in `/explain`
(source lines 325-334): take the top 5 of the importance dict sorted
by importance descending, then emit
`{"feature": name, "importance": imp, "value": float(features[i])}`
`for i, (name, importance) in enumerate(top_features) if i < len(features)`.
Note `i` is the `enumerate` rank, used both as the guard and as the
index into `features`. -/
noncomputable def top_contributing_features {na d : ℕ} (st : LinUCBBandit na d)
    (action : ℕ) (features : List ℝ) : List (String × ℝ × ℝ) :=
  let top := (pySortDescBySnd (get_feature_importance st action)).take 5
  top.enum.filterMap fun p =>
    if p.1 < features.length then some (p.2.1, p.2.2, features.getD p.1 0) else none

/-- `determine_ui_mode` from the source.  It reads `features[1]`
(stress) and `features[2]` (urge level); a vector with fewer than 3
entries short-circuits to `Growth`.  In-range list reads are modelled
with `getD` (the default is never used under the length guard). -/
noncomputable def determine_ui_mode (features : List ℝ) : UIMode :=
  if features.length < 3 then .Growth
  else
    let stress := features.getD 1 0
    let urge_level := features.getD 2 0
    if stress > 0.7 ∨ urge_level > 0.7 then .Crisis
    else if stress < 0.3 ∧ urge_level < 0.3 then .Flow
    else .Growth

/-- View a Python list of floats of known length `d` as a `d`-vector. -/
def toVec {d : ℕ} (xs : List ℝ) (h : xs.length = d) : Vec d :=
  fun i => xs.get ⟨i.val, by rw [h]; exact i.isLt⟩

/-- NumPy `xs @ M` for a 1-d array `xs` against a `d × d` matrix:
requires `len(xs) = d`, otherwise `ValueError` (modelled as `none`). -/
noncomputable def npRowMat {d : ℕ} (xs : List ℝ) (M : Mat d) : Option (Vec d) :=
  if h : xs.length = d then some (toVec xs h ᵥ* M) else none

/-- NumPy `v @ xs` for a `d`-vector against a 1-d array `xs`:
requires `len(xs) = d`, otherwise `ValueError` (modelled as `none`). -/
noncomputable def npDotList {d : ℕ} (v : Vec d) (xs : List ℝ) : Option ℝ :=
  if h : xs.length = d then some (v ⬝ᵥ toVec xs h) else none

/-- The body of the `for a in range(self.n_actions)` loop of
`choose_action` when called from an endpoint with a raw feature list:
each NumPy product can raise on a length mismatch, which aborts the
whole request.  Operation order follows the source: `A_inv`, `theta`,
`features.T @ A_inv @ features` (left-assoc), `confidence_bound`,
`theta.T @ features`. -/
noncomputable def arm_ucb_np {na d : ℕ} (st : LinUCBBandit na d) (xs : List ℝ)
    (a : Fin na) : Option ℝ := do
  let A_inv := (st.A a)⁻¹
  let theta := A_inv *ᵥ st.b a
  let w ← npRowMat xs A_inv
  let q ← npDotList w xs
  let confidence_bound := st.alpha * Real.sqrt q
  let m ← npDotList theta xs
  pure (m + confidence_bound)

/-- The `ucb_values` loop over a list of arms, aborting on the first
exception (Python semantics). -/
noncomputable def ucbValuesNp {na d : ℕ} (st : LinUCBBandit na d) (xs : List ℝ) :
    List (Fin na) → Option (List ℝ)
  | [] => some []
  | a :: rest => do
    let u ← arm_ucb_np st xs a
    let us ← ucbValuesNp st xs rest
    pure (u :: us)

/-- `LinUCBBandit.choose_action` as invoked from the endpoints on a raw
feature list (`np.array(request.features)` of arbitrary length). -/
noncomputable def choose_action_np {na d : ℕ} (st : LinUCBBandit na d) (xs : List ℝ) :
    Option (ℕ × ℝ) := do
  let vals ← ucbValuesNp st xs (List.finRange na)
  pure (npArgmax vals, vals.getD (npArgmax vals) 0)

/-- The `/choose` endpoint (`choose_action` handler, source lines
238-258): run the bandit, then `determine_ui_mode`, and answer with
`(action index, ui_mode, confidence)`.  There is no `try`/`except`:
`none` means an unhandled exception escaped the handler. -/
noncomputable def choose_endpoint {na d : ℕ} (st : LinUCBBandit na d)
    (features : List ℝ) : Option (ℕ × UIMode × ℝ) := do
  let r ← choose_action_np st features
  pure (r.1, determine_ui_mode features, r.2)

/-- `LinUCBBandit.update` as invoked from `/learn` on a raw feature
list, with NumPy broadcasting semantics for the in-place `+=`:
`np.outer(xs, xs)` is a `k × k` matrix for `k = len(xs)`, and
`A[action] += outer` succeeds iff `k = d` (elementwise) or `k = 1`
(the single value broadcasts to every entry); likewise
`b[action] += reward * xs` adds `reward * xs[0]` to every entry when
`k = 1`.  Any other length raises (modelled as `none`). -/
noncomputable def update_np {na d : ℕ} (st : LinUCBBandit na d) (xs : List ℝ)
    (a : Fin na) (r : ℝ) : Option (LinUCBBandit na d) :=
  if h : xs.length = d then some (update st (toVec xs h) a r)
  else if xs.length = 1 then
    let v := xs.getD 0 0
    some { st with
      A := Function.update st.A a (st.A a + Matrix.of fun _ _ => v * v),
      b := Function.update st.b a (fun i => st.b a i + r * v) }
  else none

/-- The reward shaping of `/learn` (source lines 269-280):
`suds_reward = -delta_suds / 10.0`,
`completion_reward = 1.0 if completed else -0.5`,
`regret_penalty = -1.0 if regret else 0.0` (Python truthiness: both
`None` and `False` give `0.0`),
`total_reward = suds_reward + completion_reward + regret_penalty`.
Returned as `(suds_reward, completion_reward, regret_penalty,
total_reward)`, the `reward_breakdown` of the response. -/
noncomputable def reward_breakdown (delta_suds : ℝ) (completed : Bool)
    (regret : Option Bool) : ℝ × ℝ × ℝ × ℝ :=
  let suds_reward := -delta_suds / 10.0
  let completion_reward := if completed then 1.0 else -0.5
  let regret_penalty := if regret = some true then -1.0 else 0.0
  let total_reward := suds_reward + completion_reward + regret_penalty
  (suds_reward, completion_reward, regret_penalty, total_reward)

/-- The `/learn` endpoint (`learn_from_feedback`, source lines
260-296): look up the arm index (`actions.index` raises on an unknown
name; the request schema restricts to the seven literals, so the guard
never fires for a well-typed request), shape the reward, update the
bandit, and answer with the reward breakdown.  `none` means an
unhandled exception. -/
noncomputable def learn_from_feedback {na d : ℕ} (st : LinUCBBandit na d)
    (features : List ℝ) (action : ActionType) (delta_suds : ℝ) (completed : Bool)
    (regret : Option Bool) : Option (LinUCBBandit na d × (ℝ × ℝ × ℝ × ℝ)) :=
  let idx := actions.indexOf action
  if h : idx < na then
    let rb := reward_breakdown delta_suds completed regret
    (update_np st features ⟨idx, h⟩ rb.2.2.2).map fun st2 => (st2, rb)
  else none

/-- The `/explain` endpoint (`explain_recommendation`, source lines
309-343), restricted to the fields claims are about: the recommended
action, its confidence, the `top_contributing_features` list, and the
`feature_values` mapping `dict(zip(bandit.feature_names,
features.tolist()))`.  The rationale string and the boolean
`decision_factors` are not modelled; no claim concerns them. -/
noncomputable def explain_recommendation {na d : ℕ} (st : LinUCBBandit na d)
    (features : List ℝ) :
    Option (ℕ × ℝ × List (String × ℝ × ℝ) × List (String × ℝ)) := do
  let r ← choose_action_np st features
  pure (r.1, r.2, top_contributing_features st r.1 features,
    feature_names.zip features)

/-- The three fields of the global `bandit` object assigned by
`load_bandit_state`, in their JSON form: `A` as a list of nested
number lists, `b` as a list of number lists, `alpha` a number.  No
shape validation is performed by the loader. -/
structure BanditFields where
  A : List (List (List ℝ))
  b : List (List ℝ)
  alpha : ℝ

/-- The parsed JSON object read by `load_bandit_state`: each key may
be absent (`state["A"]` etc. raises `KeyError` when missing). -/
structure StoredState where
  jsonA : Option (List (List (List ℝ)))
  jsonB : Option (List (List ℝ))
  jsonAlpha : Option ℝ

/-- The `d × d` identity matrix as nested lists
(`np.identity(d).tolist()`). -/
noncomputable def identityList (d : ℕ) : List (List ℝ) :=
  List.ofFn fun i : Fin d => List.ofFn fun j : Fin d => if i = j then (1 : ℝ) else 0

/-- The serialized form of the freshly initialized 7-arm, 16-feature
engine (what `save_bandit_state` would write right after
`__init__`). -/
noncomputable def freshFields : BanditFields :=
  { A := List.replicate 7 (identityList 16),
    b := List.replicate 7 (List.replicate 16 (0 : ℝ)),
    alpha := 1.0 }

/-- `load_bandit_state` (source lines 192-204).  `stored = none`
models a missing file or a `json.load` failure (both leave the fresh
state untouched).  With a parsed object, Python executes
`bandit.A = ...; bandit.b = ...; bandit.alpha = ...` in order inside
one `try`: a `KeyError` part-way through is caught and merely printed,
but the assignments already made persist. -/
noncomputable def load_bandit_state (fresh : BanditFields)
    (stored : Option StoredState) : BanditFields :=
  match stored with
  | none => fresh
  | some st =>
    match st.jsonA with
    | none => fresh
    | some a2 =>
      let s1 := { fresh with A := a2 }
      match st.jsonB with
      | none => s1
      | some b2 =>
        let s2 := { s1 with b := b2 }
        match st.jsonAlpha with
        | none => s2
        | some al => { s2 with alpha := al }

/-- The all-or-nothing contract claimed for loading: either the result
is exactly the fresh state, or every component (both matrix lists, and
the coefficient) comes from the stored object. -/
def loadAllOrNothing (fresh : BanditFields) (stored : Option StoredState) : Prop :=
  load_bandit_state fresh stored = fresh ∨
  (∃ a2 b2 al, stored = some ⟨some a2, some b2, some al⟩ ∧
    load_bandit_state fresh stored = ⟨a2, b2, al⟩)

/-- Basis vector `(1, 0, ..., 0)` in 16 dimensions, a legal context. -/
noncomputable def e0 : Vec 16 := Pi.single 0 1

/-- Basis vector `(0, 1, 0, ..., 0)` in 16 dimensions: the "stress"
coordinate. -/
noncomputable def e1 : Vec 16 := Pi.single 1 1

/-- `e1` as the request list `[0.0, 1.0, 0.0, ..., 0.0]`. -/
noncomputable def e1List : List ℝ := List.ofFn e1

/-! ## Properties of the `np.argmax` model -/

theorem npArgmax_lt_length {α : Type} [LinearOrder α] :
    ∀ {l : List α}, l ≠ [] → npArgmax l < l.length := by
  intro l
  induction l with
  | nil => intro h; exact absurd rfl h
  | cons x xs ih =>
    intro _
    simp only [npArgmax]
    split_ifs with h
    · simp
    · have hxs : xs ≠ [] := by
        rintro rfl
        simp [List.getD] at h
      simp only [List.length_cons]
      exact Nat.succ_lt_succ (ih hxs)

theorem getD_default_irrel {α : Type} (l : List α) (i : ℕ) (h : i < l.length) (d0 d1 : α) :
    l.getD i d0 = l.getD i d1 := by
  rw [List.getD_eq_getElem l d0 h, List.getD_eq_getElem l d1 h]

theorem getD_le_getD_npArgmax {α : Type} [LinearOrder α] (d0 : α) :
    ∀ (l : List α) (j : ℕ), j < l.length → l.getD j d0 ≤ l.getD (npArgmax l) d0 := by
  intro l
  induction l with
  | nil => intro j hj; simp at hj
  | cons x xs ih =>
    intro j hj
    simp only [npArgmax]
    split_ifs with hc
    · -- head is at least the running best of the tail
      match j with
      | 0 => simp
      | j' + 1 =>
        have hj' : j' < xs.length := by simpa using hj
        have hxs : xs ≠ [] := by rintro rfl; simp at hj'
        have h1 : xs.getD j' d0 ≤ xs.getD (npArgmax xs) d0 := ih j' hj'
        have h2 : xs.getD (npArgmax xs) d0 = xs.getD (npArgmax xs) x :=
          getD_default_irrel _ _ (npArgmax_lt_length hxs) _ _
        simp only [List.getD_cons_succ, List.getD_cons_zero]
        exact le_trans h1 (h2 ▸ hc)
    · have hxs : xs ≠ [] := by
        rintro rfl
        simp [List.getD] at hc
      have hbest : x < xs.getD (npArgmax xs) d0 := by
        have := lt_of_not_le hc
        rwa [getD_default_irrel _ _ (npArgmax_lt_length hxs) x d0] at this
      match j with
      | 0 => simpa using le_of_lt hbest
      | j' + 1 =>
        have hj' : j' < xs.length := by simpa using hj
        simpa using ih j' hj'

theorem getD_lt_getD_npArgmax {α : Type} [LinearOrder α] (d0 : α) :
    ∀ (l : List α) (j : ℕ), j < l.length → j < npArgmax l →
      l.getD j d0 < l.getD (npArgmax l) d0 := by
  intro l
  induction l with
  | nil => intro j hj; simp at hj
  | cons x xs ih =>
    intro j hj
    simp only [npArgmax]
    split_ifs with hc
    · intro hlt
      exact absurd hlt (Nat.not_lt_zero j)
    · have hxs : xs ≠ [] := by
        rintro rfl
        simp [List.getD] at hc
      have hbest : x < xs.getD (npArgmax xs) d0 := by
        have := lt_of_not_le hc
        rwa [getD_default_irrel _ _ (npArgmax_lt_length hxs) x d0] at this
      intro hlt
      match j with
      | 0 => simpa using hbest
      | j' + 1 =>
        have hj' : j' < xs.length := by simpa using hj
        have hlt' : j' < npArgmax xs := by omega
        simpa using ih j' hj' hlt'

/-! ## C1: the selection rule -/

theorem length_ucbValues {na d : ℕ} (st : LinUCBBandit na d) (c : Vec d) :
    (ucbValues st c).length = na := by
  simp [ucbValues]

theorem getD_ucbValues {na d : ℕ} (st : LinUCBBandit na d) (c : Vec d) (a : Fin na) :
    (ucbValues st c).getD (a : ℕ) 0 = ucb st a c := by
  rw [ucbValues, List.getD_eq_getElem _ _ (by simpa using a.isLt)]
  simp

/-- C1: `choose_action` returns the index of an arm whose UCB score
`theta.T @ context + alpha * sqrt(context.T @ A_inv @ context)` (with
`A_inv` the inverse of the arm's matrix and `theta = A_inv @ b`) is
maximal over all arms, together with that score as the confidence;
every arm with a smaller index has a strictly smaller score, i.e. the
`np.argmax` tie-break picks the lowest ordinal index. -/
theorem choose_action_spec {na d : ℕ} (st : LinUCBBandit (na + 1) d) (c : Vec d) :
    (choose_action st c).1 < na + 1 ∧
    (∃ a : Fin (na + 1), (a : ℕ) = (choose_action st c).1 ∧
      ucb st a c = (choose_action st c).2) ∧
    (∀ a : Fin (na + 1), ucb st a c ≤ (choose_action st c).2) ∧
    (∀ a : Fin (na + 1), (a : ℕ) < (choose_action st c).1 →
      ucb st a c < (choose_action st c).2) := by
  have hlen : (ucbValues st c).length = na + 1 := length_ucbValues st c
  have hne : ucbValues st c ≠ [] := by
    intro h
    rw [h] at hlen
    simp at hlen
  have hlt : npArgmax (ucbValues st c) < na + 1 := by
    have := npArgmax_lt_length hne
    omega
  have hfst : (choose_action st c).1 = npArgmax (ucbValues st c) := rfl
  have hsnd : (choose_action st c).2 =
      (ucbValues st c).getD (npArgmax (ucbValues st c)) 0 := rfl
  refine ⟨hfst ▸ hlt, ⟨⟨npArgmax (ucbValues st c), hlt⟩, by simp [hfst], ?_⟩, ?_, ?_⟩
  · rw [hsnd, ← getD_ucbValues st c ⟨npArgmax (ucbValues st c), hlt⟩]
  · intro a
    have := getD_le_getD_npArgmax 0 (ucbValues st c) (a : ℕ) (by simpa [hlen] using a.isLt)
    rwa [getD_ucbValues st c a, ← hsnd] at this
  · intro a ha
    have := getD_lt_getD_npArgmax 0 (ucbValues st c) (a : ℕ)
      (by simpa [hlen] using a.isLt) (hfst ▸ ha)
    rwa [getD_ucbValues st c a, ← hsnd] at this

/-- Witness for C1: the specification instantiated at the program's
initial engine state and the all-zero context vector. -/
theorem choose_action_spec_witness :
    (choose_action bandit 0).1 < 7 ∧
    (∃ a : Fin 7, (a : ℕ) = (choose_action bandit 0).1 ∧
      ucb bandit a 0 = (choose_action bandit 0).2) ∧
    (∀ a : Fin 7, ucb bandit a 0 ≤ (choose_action bandit 0).2) ∧
    (∀ a : Fin 7, (a : ℕ) < (choose_action bandit 0).1 →
      ucb bandit a 0 < (choose_action bandit 0).2) :=
  choose_action_spec bandit 0

/-! ## C2: symmetry and positive-definiteness of the arm matrices -/

theorem vecMulVec_mulVec_eq {d : ℕ} (c x : Vec d) :
    vecMulVec c c *ᵥ x = (c ⬝ᵥ x) • c := by
  funext i
  simp only [mulVec, vecMulVec_apply, dotProduct, Pi.smul_apply, smul_eq_mul,
    Finset.sum_mul, Finset.mul_sum]
  exact Finset.sum_congr rfl fun j _ => by ring

theorem posSemidef_vecMulVec_self {d : ℕ} (c : Vec d) : (vecMulVec c c).PosSemidef := by
  constructor
  · ext i j
    simp [Matrix.conjTranspose_apply, vecMulVec_apply, mul_comm]
  · intro x
    rw [vecMulVec_mulVec_eq, star_trivial, dotProduct_smul, smul_eq_mul, dotProduct_comm]
    exact mul_self_nonneg _

theorem isSymm_of_isHermitian {d : ℕ} {M : Mat d} (h : M.IsHermitian) : M.IsSymm := by
  ext i j
  have hij := congrFun (congrFun h i) j
  simp only [Matrix.conjTranspose_apply, star_trivial] at hij
  simpa [Matrix.transpose_apply] using hij

theorem update_posDef {na d : ℕ} (st : LinUCBBandit na d) (c : Vec d) (a0 : Fin na)
    (r : ℝ) (h : ∀ a, (st.A a).PosDef) : ∀ a, ((update st c a0 r).A a).PosDef := by
  intro a
  by_cases ha : a = a0
  · subst ha
    simpa [update] using (h a).add_posSemidef (posSemidef_vecMulVec_self c)
  · simpa [update, Function.update_noteq ha] using h a

theorem runUpdates_posDef {na d : ℕ} :
    ∀ (us : List (Vec d × Fin na × ℝ)) (st : LinUCBBandit na d),
      (∀ a, (st.A a).PosDef) → ∀ a, ((runUpdates st us).A a).PosDef := by
  intro us
  induction us with
  | nil => intro st h a; exact h a
  | cons u rest ih =>
    intro st h a
    exact ih (update st u.1 u.2.1 u.2.2) (update_posDef st u.1 u.2.1 u.2.2 h) a

/-- C2: starting from the identity-matrix initialization, after any
finite sequence of `update` calls (each adding the outer product of a
real context vector to the chosen arm's matrix), every arm's `A`
matrix is symmetric and positive-definite. -/
theorem statistic_matrix_symm_posDef {na d : ℕ} (us : List (Vec d × Fin na × ℝ))
    (a : Fin na) :
    ((runUpdates (LinUCBBandit.init na d) us).A a).IsSymm ∧
    ((runUpdates (LinUCBBandit.init na d) us).A a).PosDef := by
  have hpd : ((runUpdates (LinUCBBandit.init na d) us).A a).PosDef :=
    runUpdates_posDef us (LinUCBBandit.init na d)
      (fun _ => by simpa [LinUCBBandit.init] using (Matrix.PosDef.one : (1 : Mat d).PosDef)) a
  exact ⟨isSymm_of_isHermitian hpd.isHermitian, hpd⟩

/-- Witness for C2 at a concrete one-update sequence on the program's
7-arm, 16-feature configuration. -/
theorem statistic_matrix_symm_posDef_witness :
    ((runUpdates (LinUCBBandit.init 7 16) [(fun _ => 1, 0, 2)]).A 0).IsSymm ∧
    ((runUpdates (LinUCBBandit.init 7 16) [(fun _ => 1, 0, 2)]).A 0).PosDef :=
  statistic_matrix_symm_posDef [(fun _ => 1, 0, 2)] 0

/-! ## C10: the UI-mode classifier -/

/-- C10: the mode classifier returns `Crisis` iff the stress entry
(index 1) exceeds 0.7 or the urge-level entry (index 2) exceeds 0.7,
`Flow` iff both are below 0.3, and `Growth` otherwise; any vector with
fewer than 3 entries yields `Growth` unconditionally. -/
theorem determine_ui_mode_spec (l : List ℝ) :
    (l.length < 3 → determine_ui_mode l = UIMode.Growth) ∧
    (3 ≤ l.length →
      (determine_ui_mode l = UIMode.Crisis ↔ (0.7 < l.getD 1 0 ∨ 0.7 < l.getD 2 0)) ∧
      (determine_ui_mode l = UIMode.Flow ↔ (l.getD 1 0 < 0.3 ∧ l.getD 2 0 < 0.3)) ∧
      (determine_ui_mode l = UIMode.Growth ↔
        (¬(0.7 < l.getD 1 0 ∨ 0.7 < l.getD 2 0) ∧
         ¬(l.getD 1 0 < 0.3 ∧ l.getD 2 0 < 0.3)))) := by
  constructor
  · intro h
    simp [determine_ui_mode, h]
  · intro h
    have hlen : ¬ l.length < 3 := by omega
    unfold determine_ui_mode
    simp only [hlen, if_false]
    split_ifs with h1 h2
    · exact ⟨iff_of_true rfl h1,
        iff_of_false (by simp)
          (fun hc => by rcases h1 with h1 | h1 <;> linarith [hc.1, hc.2]),
        iff_of_false (by simp) (fun hc => hc.1 h1)⟩
    · exact ⟨iff_of_false (by simp) h1,
        iff_of_true rfl h2,
        iff_of_false (by simp) (fun hc => hc.2 h2)⟩
    · exact ⟨iff_of_false (by simp) h1,
        iff_of_false (by simp) h2,
        iff_of_true rfl ⟨h1, h2⟩⟩

/-- Witness for C10 at the four probe vectors from the spec:
`[0.5, 0.8, 0.2]` is Crisis, `[0.5, 0.2, 0.1]` is Flow,
`[0.5, 0.5, 0.5]` is Growth, and `[0.5]` is Growth. -/
theorem determine_ui_mode_spec_witness :
    determine_ui_mode [0.5, 0.8, 0.2] = UIMode.Crisis ∧
    determine_ui_mode [0.5, 0.2, 0.1] = UIMode.Flow ∧
    determine_ui_mode [0.5, 0.5, 0.5] = UIMode.Growth ∧
    determine_ui_mode [0.5] = UIMode.Growth := by
  refine ⟨?_, ?_, ?_, ?_⟩
  · exact (((determine_ui_mode_spec [0.5, 0.8, 0.2]).2 (by simp)).1).mpr
      (by norm_num [List.getD])
  · exact (((determine_ui_mode_spec [0.5, 0.2, 0.1]).2 (by simp)).2.1).mpr
      (by norm_num [List.getD])
  · exact (((determine_ui_mode_spec [0.5, 0.5, 0.5]).2 (by simp)).2.2).mpr
      (by norm_num [List.getD])
  · exact (determine_ui_mode_spec [0.5]).1 (by simp)

/-! ## C6: reward shaping -/

theorem indexOf_actions_lt (action : ActionType) : actions.indexOf action < 7 := by
  cases action <;> decide

/-- C6: the shaped reward is
`(-delta_suds / 10) + (1.0 if completed else -0.5) + (-1.0 if regret
is flagged else 0)` with no clamping of the total; in particular
`delta_suds = 0, completed = true, regret = None` gives components
`(0, 1.0, 0)` and total `1.0`; `delta_suds = 5, completed = false,
regret = true` gives `(-0.5, -0.5, -1.0)` and total `-2.0`;
`delta_suds = -100` drives the unclamped total to `11`; and `/learn`
returns exactly this breakdown to the caller. -/
theorem reward_breakdown_spec :
    (∀ (ds : ℝ) (completed : Bool) (regret : Option Bool),
      reward_breakdown ds completed regret =
        (-ds / 10, (if completed then (1 : ℝ) else -0.5),
          (if regret = some true then (-1 : ℝ) else 0),
          -ds / 10 + (if completed then (1 : ℝ) else -0.5) +
            (if regret = some true then (-1 : ℝ) else 0))) ∧
    reward_breakdown 0 true none = (0, 1, 0, 1) ∧
    reward_breakdown 5 false (some true) = (-0.5, -0.5, -1, -2) ∧
    (reward_breakdown (-100) true none).2.2.2 = 11 ∧
    (∀ (st : LinUCBBandit 7 16) (xs : List ℝ) (action : ActionType) (ds : ℝ)
      (completed : Bool) (regret : Option Bool), xs.length = 16 →
      (learn_from_feedback st xs action ds completed regret).map (fun p => p.2) =
        some (reward_breakdown ds completed regret)) := by
  have hnone : ((none : Option Bool) = some true) = False := by simp
  refine ⟨?_, by norm_num [reward_breakdown, hnone], by norm_num [reward_breakdown],
    by norm_num [reward_breakdown, hnone], ?_⟩
  · intro ds completed regret
    simp only [reward_breakdown]
    norm_num
  · intro st xs action ds completed regret hlen
    have hidx := indexOf_actions_lt action
    simp [learn_from_feedback, hidx, update_np, hlen]

/-- Witness for C6: a `/learn` call on the fresh engine with a full
16-feature context, `delta_suds = 0`, `completed = true`, no regret
flag, answers the breakdown `(0, 1.0, 0)` with total `1.0`. -/
theorem reward_breakdown_spec_witness :
    (learn_from_feedback bandit (List.replicate 16 (0.5 : ℝ)) .CBA 0 true none).map
      (fun p => p.2) = some (0, 1, 0, 1) := by
  have h := reward_breakdown_spec.2.2.2.2 bandit (List.replicate 16 (0.5 : ℝ))
    .CBA 0 true none (by simp)
  rw [h, reward_breakdown_spec.2.1]

/-! ## C4: persistence loading is not all-or-nothing -/

/-- C4 is violated by the code: `load_bandit_state` assigns `A`, `b`,
`alpha` sequentially inside one `try`, so a stored object
`{"A": []}` (valid JSON, missing the `"b"` key) leaves the engine with
the stored `A`, the fresh `b`, and the fresh `alpha` — a mixed state
that is neither the fresh state nor entirely from storage.  The first
conjunct evaluates the loader on that input; the second refutes the
all-or-nothing contract; the third records the intended fallback that
does hold when parsing fails before any assignment. -/
theorem load_bandit_state_partial :
    load_bandit_state freshFields (some ⟨some [], none, none⟩) =
      { freshFields with A := [] } ∧
    ¬ loadAllOrNothing freshFields (some ⟨some [], none, none⟩) ∧
    load_bandit_state freshFields none = freshFields := by
  refine ⟨rfl, ?_, rfl⟩
  intro hcl
  rcases hcl with h | ⟨a2, b2, al, hst, _⟩
  · have hA := congrArg BanditFields.A h
    have hlen := congrArg List.length hA
    simp [load_bandit_state, freshFields] at hlen
  · simp at hst

/-! ## Rank-one update algebra for the arm matrices -/

theorem vec_dotProduct_nonneg {d : ℕ} (c : Vec d) : 0 ≤ c ⬝ᵥ c := by
  simp only [dotProduct]
  exact Finset.sum_nonneg fun i _ => mul_self_nonneg (c i)

theorem vec_dotProduct_pos {d : ℕ} {c : Vec d} (hc : c ≠ 0) : 0 < c ⬝ᵥ c := by
  obtain ⟨i, hi⟩ := Function.ne_iff.mp hc
  simp only [Pi.zero_apply] at hi
  simp only [dotProduct]
  exact Finset.sum_pos' (fun j _ => mul_self_nonneg (c j))
    ⟨i, Finset.mem_univ i, mul_self_pos.mpr hi⟩

theorem vecMulVec_mul_self {d : ℕ} (c : Vec d) :
    vecMulVec c c * vecMulVec c c = (c ⬝ᵥ c) • vecMulVec c c := by
  ext i j
  simp only [Matrix.mul_apply, vecMulVec_apply, Matrix.smul_apply, smul_eq_mul, dotProduct,
    Finset.sum_mul]
  exact Finset.sum_congr rfl fun k _ => by ring

theorem one_add_smul_vecMulVec_mul {d : ℕ} (c : Vec d) (t : ℝ) (ht : 0 ≤ t) :
    (1 + t • vecMulVec c c) *
      (1 - (t / (1 + t * (c ⬝ᵥ c))) • vecMulVec c c) = 1 := by
  have hs : 0 ≤ c ⬝ᵥ c := vec_dotProduct_nonneg c
  have hden : (0 : ℝ) < 1 + t * (c ⬝ᵥ c) := by nlinarith
  set s := c ⬝ᵥ c with hsdef
  set S := vecMulVec c c with hSdef
  set u := t / (1 + t * s) with hudef
  have hSS : S * S = s • S := vecMulVec_mul_self c
  have h2 : (1 + t • S) * (u • S) = u • S + (u * t * s) • S := by
    rw [Matrix.mul_smul, add_mul, one_mul, Matrix.smul_mul, hSS, smul_add, smul_smul,
      smul_smul]
  have hcoef : t - (u + u * t * s) = 0 := by
    rw [hudef]
    field_simp
    ring
  calc (1 + t • S) * (1 - u • S)
      = 1 + t • S - (u • S + (u * t * s) • S) := by rw [mul_sub, mul_one, h2]
    _ = 1 + (t - (u + u * t * s)) • S := by rw [← add_smul, sub_smul, add_sub_assoc]
    _ = 1 := by rw [hcoef, zero_smul, add_zero]

theorem inv_one_add_smul_vecMulVec {d : ℕ} (c : Vec d) (t : ℝ) (ht : 0 ≤ t) :
    (1 + t • vecMulVec c c)⁻¹ = 1 - (t / (1 + t * (c ⬝ᵥ c))) • vecMulVec c c :=
  inv_eq_right_inv (one_add_smul_vecMulVec_mul c t ht)

theorem quadform_inv_one_add_smul_vecMulVec {d : ℕ} (c : Vec d) (t : ℝ) (ht : 0 ≤ t) :
    c ⬝ᵥ ((1 + t • vecMulVec c c)⁻¹ *ᵥ c) = (c ⬝ᵥ c) / (1 + t * (c ⬝ᵥ c)) := by
  have hs : 0 ≤ c ⬝ᵥ c := vec_dotProduct_nonneg c
  have hden : (0 : ℝ) < 1 + t * (c ⬝ᵥ c) := by nlinarith
  rw [inv_one_add_smul_vecMulVec c t ht, sub_mulVec, one_mulVec, smul_mulVec_assoc,
    vecMulVec_mulVec_eq, smul_smul, dotProduct_sub, dotProduct_smul, smul_eq_mul]
  field_simp
  ring

theorem theta_inv_one_add_smul_vecMulVec {d : ℕ} (c : Vec d) (t w : ℝ) (ht : 0 ≤ t) :
    ((1 + t • vecMulVec c c)⁻¹ *ᵥ (w • c)) ⬝ᵥ c =
      w * ((c ⬝ᵥ c) / (1 + t * (c ⬝ᵥ c))) := by
  rw [mulVec_smul, smul_dotProduct, smul_eq_mul, dotProduct_comm,
    quadform_inv_one_add_smul_vecMulVec c t ht]

/-! ## State after repeated identical updates -/

theorem runUpdates_cons {na d : ℕ} (st : LinUCBBandit na d) (u : Vec d × Fin na × ℝ)
    (us : List (Vec d × Fin na × ℝ)) :
    runUpdates st (u :: us) = runUpdates (update st u.1 u.2.1 u.2.2) us := rfl

theorem runUpdates_replicate_A_self {na d : ℕ} (c : Vec d) (a : Fin na) (r : ℝ) :
    ∀ (k : ℕ) (st : LinUCBBandit na d),
      (runUpdates st (List.replicate k (c, a, r))).A a =
        st.A a + (k : ℝ) • vecMulVec c c := by
  intro k
  induction k with
  | zero => intro st; simp [runUpdates]
  | succ n ih =>
    intro st
    rw [List.replicate_succ, runUpdates_cons, ih]
    simp only [update, Function.update_same]
    push_cast
    rw [add_smul, one_smul]
    abel

theorem runUpdates_replicate_A_other {na d : ℕ} (c : Vec d) (a a' : Fin na) (r : ℝ)
    (h : a' ≠ a) :
    ∀ (k : ℕ) (st : LinUCBBandit na d),
      (runUpdates st (List.replicate k (c, a, r))).A a' = st.A a' := by
  intro k
  induction k with
  | zero => intro st; simp [runUpdates]
  | succ n ih =>
    intro st
    rw [List.replicate_succ, runUpdates_cons, ih]
    simp [update, Function.update_noteq h]

theorem runUpdates_replicate_b_self {na d : ℕ} (c : Vec d) (a : Fin na) (r : ℝ) :
    ∀ (k : ℕ) (st : LinUCBBandit na d),
      (runUpdates st (List.replicate k (c, a, r))).b a =
        st.b a + ((k : ℝ) * r) • c := by
  intro k
  induction k with
  | zero => intro st; simp [runUpdates]
  | succ n ih =>
    intro st
    rw [List.replicate_succ, runUpdates_cons, ih]
    simp only [update, Function.update_same]
    push_cast
    rw [add_mul, one_mul, add_smul]
    abel

theorem runUpdates_replicate_alpha {na d : ℕ} (c : Vec d) (a : Fin na) (r : ℝ) :
    ∀ (k : ℕ) (st : LinUCBBandit na d),
      (runUpdates st (List.replicate k (c, a, r))).alpha = st.alpha := by
  intro k
  induction k with
  | zero => intro st; simp [runUpdates]
  | succ n ih =>
    intro st
    rw [List.replicate_succ, runUpdates_cons, ih]
    rfl

/-! ## C7: the exploration bonus shrinks with data -/

/-- C7 counterexample to the claim as stated: with the all-zero
context vector (a legal context of the configured dimension), a fresh
arm's bonus is not strictly greater than that of an arm updated with
the same context — both bonuses are `alpha * sqrt(0) = 0`. -/
theorem confidenceBound_zero_context_not_gt :
    ¬ (confidenceBound (runUpdates bandit (List.replicate 1 ((0 : Vec 16), 1, 1))) 0 0 >
       confidenceBound (runUpdates bandit (List.replicate 1 ((0 : Vec 16), 1, 1))) 1 0) := by
  have h : ∀ a : Fin 7,
      confidenceBound (runUpdates bandit (List.replicate 1 ((0 : Vec 16), 1, 1))) a 0 = 0 := by
    intro a
    simp only [confidenceBound]
    rw [zero_vecMul, zero_dotProduct, Real.sqrt_zero, mul_zero]
  rw [h 0, h 1]
  exact lt_irrefl 0

/-- C7 (amended): for every nonzero context vector `c` of the
configured dimension, an arm that has never been updated has a
strictly greater exploration bonus `alpha * sqrt(c.T @ A_inv @ c)`
than an arm updated `k+1` times with that same context `c`.  The
claim as stated omits `c ≠ 0`: with `c = 0` the update is a no-op and
both bonuses are zero, so only the non-strict comparison holds there. -/
theorem confidenceBound_fresh_gt_updated (c : Vec 16) (a a' : Fin 7) (r : ℝ) (k : ℕ)
    (hne : a ≠ a') (hc : c ≠ 0) :
    confidenceBound (runUpdates bandit (List.replicate (k + 1) (c, a', r))) a c >
    confidenceBound (runUpdates bandit (List.replicate (k + 1) (c, a', r))) a' c := by
  have hs : 0 < c ⬝ᵥ c := vec_dotProduct_pos hc
  have ht : (0 : ℝ) ≤ ((k + 1 : ℕ) : ℝ) := by positivity
  have hAa : (runUpdates bandit (List.replicate (k + 1) (c, a', r))).A a = 1 := by
    rw [runUpdates_replicate_A_other c a' a r hne]
    simp [bandit, LinUCBBandit.init]
  have hAa' : (runUpdates bandit (List.replicate (k + 1) (c, a', r))).A a' =
      1 + ((k + 1 : ℕ) : ℝ) • vecMulVec c c := by
    rw [runUpdates_replicate_A_self]
    simp [bandit, LinUCBBandit.init]
  have halpha : (runUpdates bandit (List.replicate (k + 1) (c, a', r))).alpha = 1 := by
    rw [runUpdates_replicate_alpha]
    norm_num [bandit, LinUCBBandit.init]
  simp only [confidenceBound, halpha, one_mul, hAa, hAa']
  rw [← dotProduct_mulVec, ← dotProduct_mulVec, inv_one, one_mulVec,
    quadform_inv_one_add_smul_vecMulVec c _ ht]
  apply Real.sqrt_lt_sqrt (by positivity)
  have hk1 : (1 : ℝ) ≤ ((k + 1 : ℕ) : ℝ) := by
    have : (1 : ℕ) ≤ k + 1 := by omega
    exact_mod_cast this
  apply div_lt_self hs
  nlinarith

/-- Witness for the amended C7 at `c = e0`, arms 0 (fresh) and 1
(updated once with reward 1). -/
theorem confidenceBound_fresh_gt_updated_witness :
    confidenceBound (runUpdates bandit (List.replicate 1 (e0, 1, 1))) 0 e0 >
    confidenceBound (runUpdates bandit (List.replicate 1 (e0, 1, 1))) 1 e0 :=
  confidenceBound_fresh_gt_updated e0 0 1 1 0 (by decide)
    (fun h => by
      have h0 := congrFun h 0
      simp [e0] at h0)

/-! ## C8: the effect of repeated updates on the score -/

/-- C8 counterexample to the claim as stated: updating an arm with
context `e0` and reward `r = 0` strictly DECREASES its subsequent UCB
score for the same context (the point estimate stays 0 while the
exploration bonus shrinks from `sqrt(1)` to `sqrt(1/2)`), so "update
strictly increases the subsequent score for every reward r" is false. -/
theorem ucb_decreases_after_zero_reward_update :
    ucb (runUpdates bandit (List.replicate 1 (e0, 0, 0))) 0 e0 < ucb bandit 0 e0 := by
  have hs : e0 ⬝ᵥ e0 = 1 := by
    simp [e0, dotProduct, Pi.single_apply]
  have hbA : bandit.A 0 = 1 := rfl
  have hbb : bandit.b 0 = 0 := rfl
  have hbal : bandit.alpha = 1 := by norm_num [bandit, LinUCBBandit.init]
  have hA1 : (runUpdates bandit (List.replicate 1 (e0, 0, 0))).A 0 =
      1 + (1 : ℝ) • vecMulVec e0 e0 := by
    rw [runUpdates_replicate_A_self]
    simp [bandit, LinUCBBandit.init]
  have hb2 : (runUpdates bandit (List.replicate 1 (e0, 0, 0))).b 0 = 0 := by
    rw [runUpdates_replicate_b_self]
    simp [bandit, LinUCBBandit.init]
  have halpha : (runUpdates bandit (List.replicate 1 (e0, 0, 0))).alpha = 1 := by
    rw [runUpdates_replicate_alpha]
    norm_num [bandit, LinUCBBandit.init]
  have hq : e0 ᵥ* (1 + (1 : ℝ) • vecMulVec e0 e0)⁻¹ ⬝ᵥ e0 = 1 / 2 := by
    rw [← dotProduct_mulVec, quadform_inv_one_add_smul_vecMulVec e0 1 (by norm_num), hs]
    norm_num
  simp only [ucb, hA1, hb2, halpha, hbA, hbb, hbal, mulVec_zero, zero_dotProduct,
    one_mul, zero_add, hq, inv_one, vecMul_one, hs, Real.sqrt_one]
  calc Real.sqrt (1 / 2) < Real.sqrt 1 := Real.sqrt_lt_sqrt (by norm_num) (by norm_num)
    _ = 1 := Real.sqrt_one

/-- C8 (amended): what repeated updates with a fixed context `c ≠ 0`
and a fixed POSITIVE reward `r` strictly increase is the exploitation
term `theta.T @ c` of the arm's score (each extra update moves it from
`k*r*s/(1+k*s)` to `(k+1)*r*s/(1+(k+1)*s)` where `s = c.T @ c`); in
particular any number of updates beats not updating.  The total UCB
score need not increase, because the exploration bonus strictly
decreases at the same time (see the counterexample with `r = 0`). -/
theorem exploitTerm_strict_mono (c : Vec 16) (a : Fin 7) (r : ℝ) (k : ℕ)
    (hc : c ≠ 0) (hr : 0 < r) :
    exploitTerm (runUpdates bandit (List.replicate k (c, a, r))) a c <
    exploitTerm (runUpdates bandit (List.replicate (k + 1) (c, a, r))) a c := by
  have hs : 0 < c ⬝ᵥ c := vec_dotProduct_pos hc
  have hform : ∀ m : ℕ, exploitTerm (runUpdates bandit (List.replicate m (c, a, r))) a c
      = ((m : ℝ) * r) * ((c ⬝ᵥ c) / (1 + (m : ℝ) * (c ⬝ᵥ c))) := by
    intro m
    have hA : (runUpdates bandit (List.replicate m (c, a, r))).A a =
        1 + (m : ℝ) • vecMulVec c c := by
      rw [runUpdates_replicate_A_self]
      simp [bandit, LinUCBBandit.init]
    have hb : (runUpdates bandit (List.replicate m (c, a, r))).b a =
        ((m : ℝ) * r) • c := by
      rw [runUpdates_replicate_b_self]
      simp [bandit, LinUCBBandit.init]
    unfold exploitTerm
    rw [hA, hb, theta_inv_one_add_smul_vecMulVec c (m : ℝ) ((m : ℝ) * r) (Nat.cast_nonneg m)]
  rw [hform k, hform (k + 1)]
  push_cast
  set s := c ⬝ᵥ c
  have h1 : (0 : ℝ) < 1 + (k : ℝ) * s := by positivity
  have h2 : (0 : ℝ) < 1 + ((k : ℝ) + 1) * s := by positivity
  rw [mul_div_assoc', mul_div_assoc', div_lt_div_iff h1 h2]
  have key : ((k : ℝ) + 1) * r * s * (1 + (k : ℝ) * s) -
      (k : ℝ) * r * s * (1 + ((k : ℝ) + 1) * s) = r * s := by ring
  nlinarith [mul_pos hr hs]

/-- Witness for the amended C8 at `c = e0`, `r = 1`, arm 0, comparing
one update against none. -/
theorem exploitTerm_strict_mono_witness :
    exploitTerm (runUpdates bandit (List.replicate 0 (e0, 0, 1))) 0 e0 <
    exploitTerm (runUpdates bandit (List.replicate 1 (e0, 0, 1))) 0 e0 :=
  exploitTerm_strict_mono e0 0 1 0
    (fun h => by
      have h0 := congrFun h 0
      simp [e0] at h0)
    (by norm_num)

/-! ## C9: feature importance -/

theorem le_foldl_max (l : List ℝ) : ∀ init : ℝ, init ≤ l.foldl max init := by
  induction l with
  | nil => intro init; exact le_refl _
  | cons y ys ih => intro init; exact le_trans (le_max_left init y) (ih (max init y))

theorem mem_le_foldl_max (l : List ℝ) : ∀ (init y : ℝ), y ∈ l → y ≤ l.foldl max init := by
  induction l with
  | nil => intro _ y h; simp at h
  | cons z zs ih =>
    intro init y h
    simp only [List.foldl_cons]
    rcases List.mem_cons.mp h with rfl | h2
    · exact le_trans (le_max_right init y) (le_foldl_max zs (max init y))
    · exact ih (max init z) y h2

theorem le_npMaxL {l : List ℝ} {y : ℝ} (h : y ∈ l) : y ≤ npMaxL l := by
  cases l with
  | nil => simp at h
  | cons x xs =>
    simp only [npMaxL]
    rcases List.mem_cons.mp h with rfl | h2
    · exact le_foldl_max xs y
    · exact mem_le_foldl_max xs x y h2

/-- C9: for every arm `a` (of the `na`-arm engine) and every state,
the importance list equals `|theta|` normalized by its maximum entry,
except that a zero maximum yields all-zero importances instead of a
division; in particular a freshly initialized arm (zero accumulator)
reports an all-zero importance vector (in the real-number model, so no
NaN can arise). -/
theorem get_feature_importance_spec {na d : ℕ} (st : LinUCBBandit na (d + 1))
    (a : Fin na) :
    (importanceScores st (a : ℕ) =
      List.ofFn fun i : Fin (d + 1) =>
        if npMaxL (List.ofFn fun j => |((st.A a)⁻¹ *ᵥ st.b a) j|) = 0 then 0
        else |((st.A a)⁻¹ *ᵥ st.b a) i| /
          npMaxL (List.ofFn fun j => |((st.A a)⁻¹ *ᵥ st.b a) j|)) ∧
    importanceScores (LinUCBBandit.init na (d + 1)) (a : ℕ) =
      List.ofFn fun _ : Fin (d + 1) => (0 : ℝ) := by
  have main : ∀ st2 : LinUCBBandit na (d + 1), importanceScores st2 (a : ℕ) =
      List.ofFn fun i : Fin (d + 1) =>
        if npMaxL (List.ofFn fun j => |((st2.A a)⁻¹ *ᵥ st2.b a) j|) = 0 then 0
        else |((st2.A a)⁻¹ *ᵥ st2.b a) i| /
          npMaxL (List.ofFn fun j => |((st2.A a)⁻¹ *ᵥ st2.b a) j|) := by
    intro st2
    have hraw : importanceRaw st2 (a : ℕ) =
        List.ofFn fun j => |((st2.A a)⁻¹ *ᵥ st2.b a) j| := by
      simp only [importanceRaw, dif_pos a.isLt, Fin.eta]
    have h0 : 0 ≤ npMaxL (List.ofFn fun j => |((st2.A a)⁻¹ *ᵥ st2.b a) j|) :=
      le_trans (abs_nonneg (((st2.A a)⁻¹ *ᵥ st2.b a) ⟨0, Nat.succ_pos d⟩))
        (le_npMaxL ((List.mem_ofFn _ _).mpr ⟨⟨0, Nat.succ_pos d⟩, rfl⟩))
    by_cases hpos : npMaxL (List.ofFn fun j => |((st2.A a)⁻¹ *ᵥ st2.b a) j|) > 0
    · simp only [importanceScores, hraw, if_pos hpos, List.map_ofFn]
      refine congrArg List.ofFn (funext fun i => ?_)
      simp only [Function.comp_apply]
      rw [if_neg (ne_of_gt hpos)]
    · have hz : npMaxL (List.ofFn fun j => |((st2.A a)⁻¹ *ᵥ st2.b a) j|) = 0 :=
        le_antisymm (not_lt.mp hpos) h0
      have hall : ∀ i : Fin (d + 1), |((st2.A a)⁻¹ *ᵥ st2.b a) i| = 0 := by
        intro i
        refine le_antisymm ?_ (abs_nonneg _)
        rw [← hz]
        exact le_npMaxL ((List.mem_ofFn _ _).mpr ⟨i, rfl⟩)
      simp only [importanceScores, hraw, if_neg hpos]
      refine congrArg List.ofFn (funext fun i => ?_)
      rw [hall i, if_pos hz]
  refine ⟨main st, ?_⟩
  rw [main (LinUCBBandit.init na (d + 1))]
  have hb0 : ((LinUCBBandit.init na (d + 1)).A a)⁻¹ *ᵥ
      (LinUCBBandit.init na (d + 1)).b a = 0 := by
    show ((LinUCBBandit.init na (d + 1)).A a)⁻¹ *ᵥ 0 = 0
    exact mulVec_zero _
  rw [hb0]
  refine congrArg List.ofFn (funext fun i => ?_)
  simp

/-- Witness for C9 at the program's global fresh bandit and arm 0: the
importance vector is identically zero. -/
theorem get_feature_importance_spec_witness :
    importanceScores bandit 0 = List.ofFn fun _ : Fin 16 => (0 : ℝ) :=
  (@get_feature_importance_spec 7 15 bandit 0).2

/-! ## C3: behavior of the endpoints on wrong-length feature vectors -/

theorem arm_ucb_np_eq_some {na d : ℕ} (st : LinUCBBandit na d) (xs : List ℝ)
    (h : xs.length = d) (a : Fin na) :
    arm_ucb_np st xs a = some (ucb st a (toVec xs h)) := by
  simp [arm_ucb_np, npRowMat, npDotList, h, ucb]

theorem arm_ucb_np_eq_none {na d : ℕ} (st : LinUCBBandit na d) (xs : List ℝ)
    (h : xs.length ≠ d) (a : Fin na) :
    arm_ucb_np st xs a = none := by
  simp [arm_ucb_np, npRowMat, h]

theorem ucbValuesNp_eq_some {na d : ℕ} (st : LinUCBBandit na d) (xs : List ℝ)
    (h : xs.length = d) :
    ∀ as : List (Fin na),
      ucbValuesNp st xs as = some (as.map fun a => ucb st a (toVec xs h)) := by
  intro as
  induction as with
  | nil => rfl
  | cons a rest ih => simp [ucbValuesNp, arm_ucb_np_eq_some st xs h, ih]

theorem ucbValuesNp_eq_none {na d : ℕ} (st : LinUCBBandit na d) (xs : List ℝ)
    (h : xs.length ≠ d) (a : Fin na) (as : List (Fin na)) :
    ucbValuesNp st xs (a :: as) = none := by
  simp [ucbValuesNp, arm_ucb_np_eq_none st xs h]

/-- On a feature list of the configured length, the endpoint-level
`choose_action` agrees with the core `choose_action` on the
corresponding vector. -/
theorem choose_action_np_eq_some {na d : ℕ} (st : LinUCBBandit na d) (xs : List ℝ)
    (h : xs.length = d) :
    choose_action_np st xs = some (choose_action st (toVec xs h)) := by
  have hmap : (List.finRange na).map (fun a => ucb st a (toVec xs h)) =
      ucbValues st (toVec xs h) := by
    rw [ucbValues, List.ofFn_eq_map]
  simp [choose_action_np, ucbValuesNp_eq_some st xs h, hmap, choose_action]

theorem choose_action_np_eq_none {na d : ℕ} (st : LinUCBBandit (na + 1) d)
    (xs : List ℝ) (h : xs.length ≠ d) :
    choose_action_np st xs = none := by
  have hfr : List.finRange (na + 1) = 0 :: (List.finRange na).map Fin.succ :=
    List.finRange_succ na
  rw [choose_action_np, hfr]
  rw [ucbValuesNp_eq_none st xs h]
  rfl

/-- C3 is violated by the code: neither `/choose` nor `/learn`
validates the context length.  First conjunct: a wrong-length vector
makes `/choose` die with an unhandled NumPy `ValueError` (modelled as
`none`) — the error is not caught in the endpoint and no descriptive
error response is produced.  Second and third conjuncts: `/learn` with
the 1-element vector `[0.5]` does not fail at all — NumPy broadcasting
silently adds `0.25` to every entry of arm CBA's matrix (shown at
entry (0,1), which should stay 0) and `0.5` to every entry of its
accumulator (shown at entry 5), padding the malformed input across the
statistics and corrupting them. -/
theorem dimension_mismatch_behavior :
    (∀ (st : LinUCBBandit 7 16) (xs : List ℝ), xs.length ≠ 16 →
      choose_endpoint st xs = none) ∧
    (learn_from_feedback bandit [0.5] .CBA 0 true none).map (fun p => p.1.A 0 0 1) =
      some 0.25 ∧
    (learn_from_feedback bandit [0.5] .CBA 0 true none).map (fun p => p.1.b 0 5) =
      some 0.5 := by
  refine ⟨?_, ?_, ?_⟩
  · intro st xs h
    simp [choose_endpoint, choose_action_np_eq_none st xs h]
  · have hidx : actions.indexOf ActionType.CBA = 0 := rfl
    have hnone : ((none : Option Bool) = some true) = False := by simp
    have h01 : (1 : Mat 16) 0 1 = 0 := Matrix.one_apply_ne (by decide)
    norm_num [learn_from_feedback, hidx, reward_breakdown, hnone, update_np,
      Function.update_same, h01, bandit, LinUCBBandit.init]
  · have hidx : actions.indexOf ActionType.CBA = 0 := rfl
    have hnone : ((none : Option Bool) = some true) = False := by simp
    norm_num [learn_from_feedback, hidx, reward_breakdown, hnone, update_np,
      Function.update_same, bandit, LinUCBBandit.init]

/-- Witness for C3's universally quantified conjunct: `/choose` on the
1-element vector `[0.5]` dies with an unhandled exception. -/
theorem dimension_mismatch_behavior_witness :
    choose_endpoint bandit [0.5] = none :=
  dimension_mismatch_behavior.1 bandit [0.5] (by norm_num)

/-! ## C5: helper lemmas for evaluating `/explain` on a concrete state -/

theorem e1_apply (j : Fin 16) : e1 j = if (j : ℕ) = 1 then 1 else 0 := by
  simp [e1, Pi.single_apply, Fin.ext_iff]

theorem toVec_ofFn {d : ℕ} (v : Vec d) (h : (List.ofFn v).length = d) :
    toVec (List.ofFn v) h = v := by
  funext i
  simp [toVec, List.get_ofFn]

theorem npArgmax_cons_of_le {α : Type} [LinearOrder α] {x : α} {xs : List α}
    (h : ∀ y ∈ xs, y ≤ x) : npArgmax (x :: xs) = 0 := by
  simp only [npArgmax]
  rw [if_pos]
  by_cases hxs : xs = []
  · subst hxs
    simp [List.getD]
  · have hr := npArgmax_lt_length hxs
    have hmem : xs.getD (npArgmax xs) x ∈ xs := by
      rw [List.getD_eq_getElem _ _ hr]
      exact List.getElem_mem _
    exact h _ hmem

theorem foldl_max_of_le (l : List ℝ) : ∀ init : ℝ, (∀ y ∈ l, y ≤ init) →
    l.foldl max init = init := by
  induction l with
  | nil => intro init _; rfl
  | cons y ys ih =>
    intro init h
    simp only [List.foldl_cons]
    rw [max_eq_left (h y (List.mem_cons_self y ys))]
    exact ih init fun z hz => h z (List.mem_cons_of_mem y hz)

theorem e1_dot_e1 : e1 ⬝ᵥ e1 = 1 := by
  simp [e1, dotProduct, Pi.single_apply]

theorem e1List_eq :
    e1List = [0, 1, 0, 0, 0, 0, 0, 0, 0, 0, 0, 0, 0, 0, 0, 0] := by
  norm_num [e1List, e1_apply, List.ofFn_succ, List.ofFn_zero, Fin.val_succ, Fin.val_zero]

theorem abs_e1_list :
    (List.ofFn fun j : Fin 16 => |e1 j|) =
      [0, 1, 0, 0, 0, 0, 0, 0, 0, 0, 0, 0, 0, 0, 0, 0] := by
  norm_num [e1_apply, List.ofFn_succ, List.ofFn_zero, Fin.val_succ, Fin.val_zero]

theorem npMaxL_abs_e1 :
    npMaxL [0, 1, 0, 0, 0, 0, 0, 0, 0, 0, 0, 0, 0, 0, 0, 0] = 1 := by
  show List.foldl max (0 : ℝ) [1, 0, 0, 0, 0, 0, 0, 0, 0, 0, 0, 0, 0, 0, 0] = 1
  simp only [List.foldl_cons, List.foldl_nil]
  norm_num [max_def]

theorem importanceRaw_eq {na d : ℕ} (st : LinUCBBandit na d) (a : Fin na) :
    importanceRaw st (a : ℕ) = List.ofFn fun i => |((st.A a)⁻¹ *ᵥ st.b a) i| := by
  simp only [importanceRaw, dif_pos a.isLt, Fin.eta]

theorem mulVec_inv_one_add_smul_vecMulVec {d : ℕ} (c : Vec d) (t w : ℝ) (ht : 0 ≤ t) :
    (1 + t • vecMulVec c c)⁻¹ *ᵥ (w • c) = (w / (1 + t * (c ⬝ᵥ c))) • c := by
  have hs : 0 ≤ c ⬝ᵥ c := vec_dotProduct_nonneg c
  have hden : (0 : ℝ) < 1 + t * (c ⬝ᵥ c) := by nlinarith
  rw [inv_one_add_smul_vecMulVec c t ht, sub_mulVec, one_mulVec, smul_mulVec_assoc,
    mulVec_smul, vecMulVec_mulVec_eq, smul_smul, smul_smul, ← sub_smul]
  congr 1
  field_simp
  ring

/-- C5 is violated by the code: the `/explain` list comprehension
pairs the `i`-th RANKED feature with `features[i]` (the `enumerate`
rank), not with the value at that feature's own position.  Concretely:
after one `/learn` with context `e1` (stress = 1, everything else 0)
on arm CBA with reward 2, `/explain` on that same context ranks
"stress" (feature index 1, raw value 1) first — but reports its value
as `features[0] = 0`, and reports "mood" (raw value 0) with value
`features[1] = 1`.  The first conjunct evaluates the endpoint; the
remaining conjuncts pin the actual stress value and `0 ≠ 1`. -/
theorem explain_top_features_wrong_values :
    (explain_recommendation (update bandit e1 0 2) e1List).map (fun p => p.2.2.1) =
      some [("stress", 1, 0), ("mood", 0, 1), ("urge_level", 0, 0), ("energy", 0, 0),
        ("sleep_quality", 0, 0)] ∧
    e1List.getD 1 0 = 1 ∧ ((0 : ℝ) ≠ 1) := by
  have hA5 : (update bandit e1 0 2).A 0 = 1 + (1 : ℝ) • vecMulVec e1 e1 := by
    simp [update, bandit, LinUCBBandit.init]
  have hb5 : (update bandit e1 0 2).b 0 = (2 : ℝ) • e1 := by
    simp [update, bandit, LinUCBBandit.init]
  have hAother : ∀ a : Fin 7, a ≠ 0 → (update bandit e1 0 2).A a = 1 := by
    intro a ha
    simp [update, Function.update_noteq ha, bandit, LinUCBBandit.init]
  have hbother : ∀ a : Fin 7, a ≠ 0 → (update bandit e1 0 2).b a = 0 := by
    intro a ha
    simp [update, Function.update_noteq ha, bandit, LinUCBBandit.init]
  have halpha : (update bandit e1 0 2).alpha = 1 := by
    norm_num [update, bandit, LinUCBBandit.init]
  have hθ : ((update bandit e1 0 2).A 0)⁻¹ *ᵥ (update bandit e1 0 2).b 0 = e1 := by
    rw [hA5, hb5, mulVec_inv_one_add_smul_vecMulVec e1 1 2 (by norm_num), e1_dot_e1]
    norm_num
  have hq : e1 ᵥ* ((update bandit e1 0 2).A 0)⁻¹ ⬝ᵥ e1 = 1 / 2 := by
    rw [hA5, ← dotProduct_mulVec, quadform_inv_one_add_smul_vecMulVec e1 1 (by norm_num),
      e1_dot_e1]
    norm_num
  have hucb0 : ucb (update bandit e1 0 2) 0 e1 = 1 + Real.sqrt (1 / 2) := by
    simp only [ucb]
    rw [hθ, hq, e1_dot_e1, halpha, one_mul]
  have hucba : ∀ a : Fin 7, a ≠ 0 → ucb (update bandit e1 0 2) a e1 = 1 := by
    intro a ha
    simp only [ucb]
    rw [hAother a ha, hbother a ha, inv_one, mulVec_zero, zero_dotProduct, vecMul_one,
      e1_dot_e1, Real.sqrt_one, halpha, one_mul, zero_add]
  have htail : (List.ofFn fun i : Fin 6 => ucb (update bandit e1 0 2) (Fin.succ i) e1) =
      List.ofFn (fun _ : Fin 6 => (1 : ℝ)) :=
    congrArg List.ofFn (funext fun i => hucba i.succ (Fin.succ_ne_zero i))
  have hvals : ucbValues (update bandit e1 0 2) e1 =
      (1 + Real.sqrt (1 / 2)) :: List.ofFn (fun _ : Fin 6 => (1 : ℝ)) := by
    rw [ucbValues, List.ofFn_succ]
    show ucb (update bandit e1 0 2) 0 e1 ::
        (List.ofFn fun i : Fin 6 => ucb (update bandit e1 0 2) (Fin.succ i) e1) = _
    rw [hucb0, htail]
  have hchoose : choose_action (update bandit e1 0 2) e1 = (0, 1 + Real.sqrt (1 / 2)) := by
    simp only [choose_action, hvals]
    rw [npArgmax_cons_of_le]
    · simp [List.getD_cons_zero]
    · intro y hy
      obtain ⟨i, rfl⟩ := (List.mem_ofFn _ _).mp hy
      have := Real.sqrt_nonneg (1 / 2 : ℝ)
      linarith
  have hlen : e1List.length = 16 := by simp [e1List]
  have htv : toVec e1List hlen = e1 := toVec_ofFn e1 hlen
  have hnp : choose_action_np (update bandit e1 0 2) e1List =
      some (0, 1 + Real.sqrt (1 / 2)) := by
    rw [choose_action_np_eq_some _ _ hlen, htv, hchoose]
  have hraw : importanceRaw (update bandit e1 0 2) 0 =
      [0, 1, 0, 0, 0, 0, 0, 0, 0, 0, 0, 0, 0, 0, 0, 0] := by
    have h := importanceRaw_eq (update bandit e1 0 2) (0 : Fin 7)
    simp only [Fin.val_zero] at h
    rw [h, hθ]
    exact abs_e1_list
  have hscores : importanceScores (update bandit e1 0 2) 0 =
      [0, 1, 0, 0, 0, 0, 0, 0, 0, 0, 0, 0, 0, 0, 0, 0] := by
    simp only [importanceScores, hraw, npMaxL_abs_e1]
    rw [if_pos (by norm_num : (1 : ℝ) > 0)]
    norm_num
  have hfi : get_feature_importance (update bandit e1 0 2) 0 =
      [("mood", 0), ("stress", 1), ("urge_level", 0), ("energy", 0),
       ("sleep_quality", 0), ("workload", 0), ("social_support", 0),
       ("time_of_day", 0), ("day_of_week", 0), ("streak_normalized", 0),
       ("streak_momentum", 0), ("emotional_volatility", 0), ("core_balance", 0),
       ("contextual_risk", 0), ("recent_tool_effectiveness", 0),
       ("tool_diversity_score", 0)] := by
    rw [get_feature_importance, hscores]
    rfl
  have hsorted : pySortDescBySnd
      [("mood", 0), ("stress", 1), ("urge_level", 0), ("energy", 0),
       ("sleep_quality", 0), ("workload", 0), ("social_support", 0),
       ("time_of_day", 0), ("day_of_week", 0), ("streak_normalized", 0),
       ("streak_momentum", 0), ("emotional_volatility", 0), ("core_balance", 0),
       ("contextual_risk", 0), ("recent_tool_effectiveness", 0),
       ("tool_diversity_score", 0)] =
      [("stress", 1), ("mood", 0), ("urge_level", 0), ("energy", 0),
       ("sleep_quality", 0), ("workload", 0), ("social_support", 0),
       ("time_of_day", 0), ("day_of_week", 0), ("streak_normalized", 0),
       ("streak_momentum", 0), ("emotional_volatility", 0), ("core_balance", 0),
       ("contextual_risk", 0), ("recent_tool_effectiveness", 0),
       ("tool_diversity_score", 0)] := by
    norm_num [pySortDescBySnd, pyInsertDesc]
  have htop : top_contributing_features (update bandit e1 0 2) 0 e1List =
      [("stress", 1, 0), ("mood", 0, 1), ("urge_level", 0, 0), ("energy", 0, 0),
       ("sleep_quality", 0, 0)] := by
    simp only [top_contributing_features, hfi, hsorted, e1List_eq]
    norm_num [List.take, List.enum, List.enumFrom, List.filterMap, List.getD]
  refine ⟨?_, ?_, by norm_num⟩
  · simp only [explain_recommendation, hnp]
    show some (top_contributing_features (update bandit e1 0 2) 0 e1List) =
      some [("stress", 1, 0), ("mood", 0, 1), ("urge_level", 0, 0), ("energy", 0, 0),
        ("sleep_quality", 0, 0)]
    rw [htop]
  · rw [e1List_eq]
    norm_num [List.getD]

end Smartbot
